import Mathlib

/-!
Shallow embedding of the docling UI glue code (`docling_ui.py`, basic variant,
and `docling-enhanced/docling_ui.py`, enhanced variant) together with proofs
about the claims of the natural-language specification.

Filenames, log lines and converted contents are modelled as Lean `String`s /
`List Char`; Python regular expressions over ASCII text are modelled by
explicit scanning functions; Python exceptions are modelled by a record
carrying a type name and a message, with `str(e)` returning the message.
-/

namespace DoclingUI

/-! ### Character and string helpers (ASCII model of `str.lower`, `\d`, `in`) -/

/-- ASCII model of Python `str.lower` on a single character. -/
def lowerChar (c : Char) : Char :=
  match c with
  | 'A' => 'a' | 'B' => 'b' | 'C' => 'c' | 'D' => 'd' | 'E' => 'e' | 'F' => 'f'
  | 'G' => 'g' | 'H' => 'h' | 'I' => 'i' | 'J' => 'j' | 'K' => 'k' | 'L' => 'l'
  | 'M' => 'm' | 'N' => 'n' | 'O' => 'o' | 'P' => 'p' | 'Q' => 'q' | 'R' => 'r'
  | 'S' => 's' | 'T' => 't' | 'U' => 'u' | 'V' => 'v' | 'W' => 'w' | 'X' => 'x'
  | 'Y' => 'y' | 'Z' => 'z'
  | c => c

/-- `str.lower` over a whole string (as a character list). -/
def lowerList (cs : List Char) : List Char := cs.map lowerChar

/-- Python's substring test `pat in s`. -/
def containsList (pat : List Char) : List Char → Bool
  | [] => pat.isEmpty
  | c :: t => pat.isPrefixOf (c :: t) || containsList pat t

theorem lowerChar_eq_dot {c : Char} : lowerChar c = '.' ↔ c = '.' := by
  constructor
  · intro h
    unfold lowerChar at h
    split at h <;> simp_all
  · intro h
    subst h
    rfl

theorem isPrefixOf_iff_exists (l : List Char) :
    ∀ s, l.isPrefixOf s = true ↔ ∃ t, s = l ++ t := by
  induction l with
  | nil =>
    intro s
    simp [List.isPrefixOf]
  | cons a l ih =>
    intro s
    cases s with
    | nil => simp [List.isPrefixOf]
    | cons b t =>
      simp only [List.isPrefixOf, Bool.and_eq_true, beq_iff_eq, ih, List.cons_append,
        List.cons.injEq]
      constructor
      · rintro ⟨rfl, u, rfl⟩
        exact ⟨u, rfl, rfl⟩
      · rintro ⟨u, rfl, rfl⟩
        exact ⟨rfl, u, rfl⟩

theorem containsList_iff (pat : List Char) :
    ∀ s, containsList pat s = true ↔ ∃ a b, s = a ++ pat ++ b := by
  intro s
  induction s with
  | nil =>
    simp only [containsList, List.isEmpty_iff]
    constructor
    · rintro rfl
      exact ⟨[], [], rfl⟩
    · rintro ⟨a, b, h⟩
      rcases a <;> rcases pat <;> simp_all
  | cons c t ih =>
    simp only [containsList, Bool.or_eq_true, isPrefixOf_iff_exists, ih]
    constructor
    · rintro (⟨u, h⟩ | ⟨a, b, rfl⟩)
      · exact ⟨[], u, by simpa using h⟩
      · exact ⟨c :: a, b, rfl⟩
    · rintro ⟨a, b, h⟩
      cases a with
      | nil =>
        left
        exact ⟨b, by simpa using h⟩
      | cons a' as =>
        right
        rcases h with ⟨rfl, rfl⟩
        exact ⟨as, b, rfl⟩

/-! ### Basic variant: `LogCapture` (docling_ui.py lines 33-62)

`emit` formats the record (here: the already-formatted line is the input),
always enqueues it, and when the line contains the guard substring
`"Finished converting pages"` it runs
`re.search(r"Finished converting pages (\d+)/(\d+)", log_entry)` and, on a
match, overwrites `page_progress` with the two captured integers. -/

/-- The literal part of the regex, including the trailing space. -/
def pagesLit : List Char := "Finished converting pages ".toList

/-- The guard substring tested with Python `in` before running the regex. -/
def guardLit : List Char := "Finished converting pages".toList

/-- Value of a (non-empty, possibly zero-padded) digit run, as `int()` parses it. -/
def natOfDigits (ds : List Char) : Nat :=
  ds.foldl (fun n c => n * 10 + (c.toNat - 48)) 0

/-- Attempt of the regex `Finished converting pages (\d+)/(\d+)` anchored at the
start of `cs` (`\d+` is greedy; a shorter digit run can never be followed by
`/`, so maximal-run matching is faithful). -/
def matchPagesAt (cs : List Char) : Option (Nat × Nat) :=
  if pagesLit.isPrefixOf cs then
    let rest := cs.drop pagesLit.length
    let dx := rest.takeWhile Char.isDigit
    if dx = [] then none
    else
      match rest.dropWhile Char.isDigit with
      | '/' :: r2 =>
        let dy := r2.takeWhile Char.isDigit
        if dy = [] then none
        else some (natOfDigits dx, natOfDigits dy)
      | _ => none
  else none

/-- `re.search`: try the pattern at every start position, left to right. -/
def searchPages : List Char → Option (Nat × Nat)
  | [] => none
  | c :: t =>
    match matchPagesAt (c :: t) with
    | some r => some r
    | none => searchPages t

/-- `self.page_progress = {"current": ..., "total": ...}` -/
structure PageProgress where
  current : Nat
  total : Nat
deriving DecidableEq, Repr

/-- State of the basic `LogCapture` handler: the log queue and the progress dict. -/
structure BasicLogState where
  queue : List String
  pp : PageProgress
deriving DecidableEq, Repr

/-- `LogCapture.emit` of the basic variant (docling_ui.py lines 39-50). -/
def emitBasic (st : BasicLogState) (entry : String) : BasicLogState :=
  let queue' := st.queue ++ [entry]
  if containsList guardLit entry.toList then
    match searchPages entry.toList with
    | some (x, y) => ⟨queue', ⟨x, y⟩⟩
    | none => ⟨queue', st.pp⟩
  else ⟨queue', st.pp⟩

/-- Claim-side predicate: the line contains
`"Finished converting pages X/Y"` with integers `X` and `Y` (written as
non-empty digit runs). -/
def PagesOccurrence (s : List Char) (x y : Nat) : Prop :=
  ∃ a dx dy b, dx ≠ [] ∧ dy ≠ [] ∧ (∀ c ∈ dx, c.isDigit = true) ∧
    (∀ c ∈ dy, c.isDigit = true) ∧ natOfDigits dx = x ∧ natOfDigits dy = y ∧
    s = a ++ pagesLit ++ dx ++ '/' :: (dy ++ b)

/-! ### Enhanced variant: `LogCapture` (docling-enhanced/docling_ui.py lines 35-61)

`emit` appends the line to `self.logs`; when the lowercased line contains
`"page"` and one of `"processing"`, `"converting"`, `"extracting"`, it runs
`re.search(r'page\s*(\d+)', log_entry.lower())` and on a match stores the
original line in the dict `self.page_progress` under the page number. -/

/-- ASCII model of the regex class `\s`. -/
def pySpace (c : Char) : Bool :=
  c = ' ' || c = '\t' || c = '\n' || c = '\x0d' || c = '\x0b' || c = '\x0c'

/-- Attempt of `page\s*(\d+)` anchored at the start of `cs`. -/
def matchPageNumAt (cs : List Char) : Option Nat :=
  if ("page".toList).isPrefixOf cs then
    let rest := (cs.drop 4).dropWhile pySpace
    let d := rest.takeWhile Char.isDigit
    if d = [] then none else some (natOfDigits d)
  else none

/-- `re.search` for `page\s*(\d+)`. -/
def searchPageNum : List Char → Option Nat
  | [] => none
  | c :: t =>
    match matchPageNumAt (c :: t) with
    | some r => some r
    | none => searchPageNum t

/-- Python dict assignment `d[k] = v` on an insertion-ordered association list. -/
def dictInsert (k : Nat) (v : String) : List (Nat × String) → List (Nat × String)
  | [] => [(k, v)]
  | (k', v') :: t => if k' = k then (k, v) :: t else (k', v') :: dictInsert k v t

/-- State of the enhanced `LogCapture`: `self.logs` and the dict `self.page_progress`. -/
structure EnhLogState where
  logs : List String
  pageProgress : List (Nat × String)
deriving DecidableEq, Repr

/-- `LogCapture.emit` of the enhanced variant (lines 41-51). -/
def emitEnh (st : EnhLogState) (entry : String) : EnhLogState :=
  let logs' := st.logs ++ [entry]
  let low := lowerList entry.toList
  if containsList "page".toList low &&
      (containsList "processing".toList low || containsList "converting".toList low ||
       containsList "extracting".toList low) then
    match searchPageNum low with
    | some n => ⟨logs', dictInsert n entry st.pageProgress⟩
    | none => ⟨logs', st.pageProgress⟩
  else ⟨logs', st.pageProgress⟩

theorem matchPagesAt_some {cs : List Char} {x y : Nat} (h : matchPagesAt cs = some (x, y)) :
    ∃ dx dy b, dx ≠ [] ∧ dy ≠ [] ∧ (∀ c ∈ dx, c.isDigit = true) ∧
      (∀ c ∈ dy, c.isDigit = true) ∧ natOfDigits dx = x ∧ natOfDigits dy = y ∧
      cs = pagesLit ++ dx ++ '/' :: (dy ++ b) := by
  unfold matchPagesAt at h
  by_cases hp : pagesLit.isPrefixOf cs = true
  · rw [if_pos hp] at h
    obtain ⟨t, rfl⟩ := (isPrefixOf_iff_exists _ _).mp hp
    rw [List.drop_left] at h
    by_cases hdx : t.takeWhile Char.isDigit = []
    · rw [if_pos hdx] at h
      exact absurd h (by simp)
    · rw [if_neg hdx] at h
      rcases hr : t.dropWhile Char.isDigit with _ | ⟨c, r2⟩ <;> rw [hr] at h
      · exact absurd h (by simp)
      · by_cases hc : c = '/'
        · subst hc
          simp only at h
          by_cases hdy : r2.takeWhile Char.isDigit = []
          · rw [if_pos hdy] at h
            exact absurd h (by simp)
          · rw [if_neg hdy] at h
            simp only [Option.some.injEq, Prod.mk.injEq] at h
            refine ⟨t.takeWhile Char.isDigit, r2.takeWhile Char.isDigit,
              r2.dropWhile Char.isDigit, hdx, hdy, ?_, ?_, h.1, h.2, ?_⟩
            · intro c hc
              have := List.all_takeWhile (p := Char.isDigit) (l := t)
              exact List.all_eq_true.mp this c hc
            · intro c hc
              have := List.all_takeWhile (p := Char.isDigit) (l := r2)
              exact List.all_eq_true.mp this c hc
            · have ht : t = t.takeWhile Char.isDigit ++
                  '/' :: (r2.takeWhile Char.isDigit ++ r2.dropWhile Char.isDigit) := by
                conv_lhs =>
                  rw [← List.takeWhile_append_dropWhile (p := Char.isDigit) (l := t)]
                rw [hr, List.takeWhile_append_dropWhile]
              rw [List.append_assoc]
              exact congrArg (pagesLit ++ ·) ht
        · rcases c with ⟨cv, cvh⟩
          simp_all
  · rw [if_neg hp] at h
    exact absurd h (by simp)

theorem matchPagesAt_none {cs : List Char} (h : pagesLit.isPrefixOf cs = false) :
    matchPagesAt cs = none := by
  unfold matchPagesAt
  rw [if_neg (by simp [h])]

theorem matchPagesAt_canonical {dx dy b : List Char} (hdx : dx ≠ [])
    (hdigx : ∀ c ∈ dx, c.isDigit = true) (hdy : dy ≠ [])
    (hdigy : ∀ c ∈ dy, c.isDigit = true) (hb : b.takeWhile Char.isDigit = []) :
    matchPagesAt (pagesLit ++ dx ++ '/' :: (dy ++ b)) =
      some (natOfDigits dx, natOfDigits dy) := by
  unfold matchPagesAt
  have hp : pagesLit.isPrefixOf (pagesLit ++ dx ++ '/' :: (dy ++ b)) = true := by
    rw [isPrefixOf_iff_exists]
    exact ⟨dx ++ '/' :: (dy ++ b), by simp⟩
  rw [if_pos (by simp [hp]), List.append_assoc, List.drop_left]
  have htake : (dx ++ '/' :: (dy ++ b)).takeWhile Char.isDigit = dx := by
    rw [List.takeWhile_append_of_pos hdigx, List.takeWhile_cons_of_neg (by decide)]
    simp
  have hdrop : (dx ++ '/' :: (dy ++ b)).dropWhile Char.isDigit = '/' :: (dy ++ b) := by
    rw [List.dropWhile_append_of_pos hdigx, List.dropWhile_cons_of_neg (by decide)]
  have htake2 : (dy ++ b).takeWhile Char.isDigit = dy := by
    rw [List.takeWhile_append_of_pos hdigy, hb]
    simp
  simp only [htake, hdrop, if_neg hdx, htake2, if_neg hdy]

theorem searchPages_cons_some {s : List Char} {r : Nat × Nat} (hs : s ≠ [])
    (hm : matchPagesAt s = some r) : searchPages s = some r := by
  rcases s with _ | ⟨c, t⟩
  · exact absurd rfl hs
  · unfold searchPages
    rw [hm]

theorem searchPages_sound {x y : Nat} :
    ∀ s : List Char, searchPages s = some (x, y) → PagesOccurrence s x y := by
  intro s
  induction s with
  | nil => intro h; exact absurd h (by simp [searchPages])
  | cons c t ih =>
    intro h
    unfold searchPages at h
    rcases hm : matchPagesAt (c :: t) with _ | r <;> rw [hm] at h
    · obtain ⟨a, dx, dy, b, h1, h2, h3, h4, h5, h6, h7⟩ := ih h
      exact ⟨c :: a, dx, dy, b, h1, h2, h3, h4, h5, h6, by simp [h7]⟩
    · simp only [Option.some.injEq] at h
      subst h
      obtain ⟨dx, dy, b, h1, h2, h3, h4, h5, h6, h7⟩ := matchPagesAt_some hm
      exact ⟨[], dx, dy, b, h1, h2, h3, h4, h5, h6, by simp [h7]⟩

theorem searchPages_first :
    ∀ (a : List Char) {dx dy b : List Char}, dx ≠ [] →
      (∀ c ∈ dx, c.isDigit = true) → dy ≠ [] → (∀ c ∈ dy, c.isDigit = true) →
      b.takeWhile Char.isDigit = [] →
      (∀ i < a.length,
        pagesLit.isPrefixOf ((a ++ pagesLit ++ dx ++ '/' :: (dy ++ b)).drop i) = false) →
      searchPages (a ++ pagesLit ++ dx ++ '/' :: (dy ++ b)) =
        some (natOfDigits dx, natOfDigits dy) := by
  intro a
  induction a with
  | nil =>
    intro dx dy b hdx hdigx hdy hdigy hb _
    rw [List.nil_append]
    refine searchPages_cons_some ?_ (matchPagesAt_canonical hdx hdigx hdy hdigy hb)
    simp
  | cons c a ih =>
    intro dx dy b hdx hdigx hdy hdigy hb hfirst
    have h0 : pagesLit.isPrefixOf (c :: (a ++ pagesLit ++ dx ++ '/' :: (dy ++ b))) = false := by
      have := hfirst 0 (by simp)
      simpa using this
    have hrest : ∀ i < a.length,
        pagesLit.isPrefixOf ((a ++ pagesLit ++ dx ++ '/' :: (dy ++ b)).drop i) = false := by
      intro i hi
      have := hfirst (i + 1) (by simp; omega)
      simpa using this
    have hm : matchPagesAt (c :: (a ++ pagesLit ++ dx ++ '/' :: (dy ++ b))) = none :=
      matchPagesAt_none h0
    have hcons : (c :: a) ++ pagesLit ++ dx ++ '/' :: (dy ++ b) =
        c :: (a ++ pagesLit ++ dx ++ '/' :: (dy ++ b)) := by simp
    rw [hcons]
    unfold searchPages
    rw [hm]
    exact ih hdx hdigx hdy hdigy hb hrest

example :
    (emitBasic ⟨[], ⟨0, 0⟩⟩ "Finished converting pages 5/10 time=1.234").pp = ⟨5, 10⟩ := by
  decide

example :
    (emitEnh ⟨[], []⟩ "Finished converting pages 5/10 time=1.234").pageProgress = [] := by
  decide

example :
    (emitEnh ⟨[], []⟩ "Processing page 3 of document").pageProgress =
      [(3, "Processing page 3 of document")] := by
  decide

/-- C6 (amended to the basic variant's `LogCapture.emit`): whenever the
formatted log line contains `"Finished converting pages X/Y"` with integer
digit runs `X` and `Y` (the first such occurrence, with the digit run `Y`
maximal), `emit` sets the shared page-progress state to
`current = X, total = Y`; a line with no such occurrence leaves the
page-progress state unchanged. -/
theorem c6_page_progress_relay (st : BasicLogState) (entry : String) :
    (∀ a dx dy b, entry.toList = a ++ pagesLit ++ dx ++ '/' :: (dy ++ b) →
      dx ≠ [] → (∀ c ∈ dx, c.isDigit = true) → dy ≠ [] → (∀ c ∈ dy, c.isDigit = true) →
      b.takeWhile Char.isDigit = [] →
      (∀ i < a.length, pagesLit.isPrefixOf (entry.toList.drop i) = false) →
      (emitBasic st entry).pp = ⟨natOfDigits dx, natOfDigits dy⟩) ∧
    ((∀ x y, ¬ PagesOccurrence entry.toList x y) → (emitBasic st entry).pp = st.pp) := by
  constructor
  · intro a dx dy b hdecomp hdx hdigx hdy hdigy hb hfirst
    have hguard : containsList guardLit entry.toList = true := by
      rw [containsList_iff]
      refine ⟨a, ' ' :: (dx ++ '/' :: (dy ++ b)), ?_⟩
      rw [hdecomp]
      have hg : pagesLit = guardLit ++ [' '] := by decide
      simp [hg]
    have hfirst' : ∀ i < a.length,
        pagesLit.isPrefixOf ((a ++ pagesLit ++ dx ++ '/' :: (dy ++ b)).drop i) = false := by
      intro i hi
      have := hfirst i hi
      rwa [hdecomp] at this
    have hsearch : searchPages entry.toList = some (natOfDigits dx, natOfDigits dy) := by
      rw [hdecomp]
      exact searchPages_first a hdx hdigx hdy hdigy hb hfirst'
    have hguard2 : containsList guardLit entry.data = true := hguard
    have hsearch2 : searchPages entry.data = some (natOfDigits dx, natOfDigits dy) := hsearch
    simp [emitBasic, hguard2, hsearch2]
  · intro hno
    by_cases hg : containsList guardLit entry.toList = true
    · rcases hs : searchPages entry.toList with _ | ⟨x, y⟩
      · have hg2 : containsList guardLit entry.data = true := hg
        have hs2 : searchPages entry.data = none := hs
        simp [emitBasic, hg2, hs2]
      · exact absurd (searchPages_sound _ hs) (hno x y)
    · simp only [Bool.not_eq_true] at hg
      have hg2 : containsList guardLit entry.data = false := hg
      simp [emitBasic, hg2]

/-- Witness for C6 on the log line format documented in the source comment. -/
theorem c6_witness :
    (emitBasic ⟨[], ⟨0, 0⟩⟩ "Finished converting pages 5/10 time=1.234").pp = ⟨5, 10⟩ := by
  have h := (c6_page_progress_relay ⟨[], ⟨0, 0⟩⟩ "Finished converting pages 5/10 time=1.234").1
    [] ['5'] ['1', '0'] " time=1.234".toList (by decide) (by decide) (by decide)
    (by decide) (by decide) (by decide) (by simp)
  rw [h]
  decide

/-- Counterexample to C6 as stated: the enhanced variant's `emit` is also a
log-capture handler, yet on a line containing `"Finished converting pages 5/10"`
it leaves its page-progress state unchanged (it matches a different pattern,
`page\s*(\d+)`, which this line does not satisfy). -/
theorem c6_counterexample :
    PagesOccurrence ("Finished converting pages 5/10 time=1.234".toList) 5 10 ∧
    (emitEnh ⟨[], []⟩ "Finished converting pages 5/10 time=1.234").pageProgress = [] := by
  constructor
  · exact ⟨[], ['5'], ['1', '0'], " time=1.234".toList, by decide, by decide, by decide,
      by decide, by decide, by decide, by decide⟩
  · decide

/-! ### Reference-level model of `.copy()` accessors (C9)

`get_page_progress` (basic, lines 61-62) returns `self.page_progress.copy()`;
`get_logs` (enhanced, lines 53-54) returns `self.logs.copy()`. To state that
the returned object is a *copy* — mutating it does not affect the handler —
objects are modelled as cells of an allocation-ordered heap. -/

/-- A heap of mutable cells holding values of type `α`; `size` is the next
fresh address. -/
structure Heap (α : Type) where
  size : Nat
  val : Nat → α

/-- Allocate a fresh cell holding `a`; returns the new heap and the address. -/
def Heap.alloc {α : Type} (h : Heap α) (a : α) : Heap α × Nat :=
  (⟨h.size + 1, fun i => if i = h.size then a else h.val i⟩, h.size)

/-- In-place mutation of the cell at address `r`. -/
def Heap.write {α : Type} (h : Heap α) (r : Nat) (a : α) : Heap α :=
  ⟨h.size, fun i => if i = r then a else h.val i⟩

/-- Read the cell at address `r`. -/
def Heap.read {α : Type} (h : Heap α) (r : Nat) : α := h.val r

/-- `LogCapture.get_page_progress` (basic variant): `return self.page_progress.copy()`
— allocate a fresh dict with the same contents and return its address. -/
def getPageProgressRef (h : Heap PageProgress) (self : Nat) : Heap PageProgress × Nat :=
  h.alloc (h.read self)

/-- `LogCapture.get_logs` (enhanced variant): `return self.logs.copy()`. -/
def getLogsRef (h : Heap (List String)) (self : Nat) : Heap (List String) × Nat :=
  h.alloc (h.read self)

theorem copyAccessor_spec {α : Type} (h : Heap α) (self : Nat) (hs : self < h.size) :
    (h.alloc (h.read self)).2 ≠ self ∧
    (h.alloc (h.read self)).1.read (h.alloc (h.read self)).2 = h.read self ∧
    (h.alloc (h.read self)).1.read self = h.read self ∧
    (∀ v, (((h.alloc (h.read self)).1.write (h.alloc (h.read self)).2 v).read self) =
      h.read self) := by
  refine ⟨?_, ?_, ?_, ?_⟩
  · simp only [Heap.alloc]
    omega
  · simp [Heap.alloc, Heap.read]
  · simp only [Heap.alloc, Heap.read]
    rw [if_neg (by omega)]
  · intro v
    simp only [Heap.alloc, Heap.write, Heap.read]
    rw [if_neg (by omega), if_neg (by omega)]

/-- C9: `get_page_progress` (basic) and `get_logs` (enhanced) return a fresh
copy of the handler's internal state: the returned object is a new cell with
equal contents, the handler's cell is untouched, mutating the returned object
leaves the handler's cell unchanged, and two consecutive calls with no
intervening emit return equal values. -/
theorem c9_accessors_return_copies
    (hp : Heap PageProgress) (sp : Nat) (hsp : sp < hp.size)
    (hl : Heap (List String)) (sl : Nat) (hsl : sl < hl.size) :
    ((getPageProgressRef hp sp).2 ≠ sp ∧
      (getPageProgressRef hp sp).1.read (getPageProgressRef hp sp).2 = hp.read sp ∧
      (getPageProgressRef hp sp).1.read sp = hp.read sp ∧
      (∀ v, ((getPageProgressRef hp sp).1.write (getPageProgressRef hp sp).2 v).read sp =
        hp.read sp) ∧
      (getPageProgressRef (getPageProgressRef hp sp).1 sp).1.read
          (getPageProgressRef (getPageProgressRef hp sp).1 sp).2 =
        (getPageProgressRef hp sp).1.read (getPageProgressRef hp sp).2) ∧
    ((getLogsRef hl sl).2 ≠ sl ∧
      (getLogsRef hl sl).1.read (getLogsRef hl sl).2 = hl.read sl ∧
      (getLogsRef hl sl).1.read sl = hl.read sl ∧
      (∀ v, ((getLogsRef hl sl).1.write (getLogsRef hl sl).2 v).read sl = hl.read sl) ∧
      (getLogsRef (getLogsRef hl sl).1 sl).1.read (getLogsRef (getLogsRef hl sl).1 sl).2 =
        (getLogsRef hl sl).1.read (getLogsRef hl sl).2) := by
  obtain ⟨p1, p2, p3, p4⟩ := copyAccessor_spec hp sp hsp
  obtain ⟨l1, l2, l3, l4⟩ := copyAccessor_spec hl sl hsl
  have hsp' : sp < (getPageProgressRef hp sp).1.size := by
    simp only [getPageProgressRef, Heap.alloc]
    omega
  have hsl' : sl < (getLogsRef hl sl).1.size := by
    simp only [getLogsRef, Heap.alloc]
    omega
  obtain ⟨q1, q2, q3, q4⟩ := copyAccessor_spec (getPageProgressRef hp sp).1 sp hsp'
  obtain ⟨m1, m2, m3, m4⟩ := copyAccessor_spec (getLogsRef hl sl).1 sl hsl'
  simp only [getPageProgressRef, getLogsRef] at q2 m2 ⊢
  exact ⟨⟨p1, p2, p3, p4, by rw [q2, p3, p2]⟩,
    ⟨l1, l2, l3, l4, by rw [m2, l3, l2]⟩⟩

/-- Witness for C9 at a one-cell heap holding progress `(3, 7)` / logs `["a"]`. -/
theorem c9_witness :
    (getPageProgressRef ⟨1, fun _ => ⟨3, 7⟩⟩ 0).2 ≠ 0 ∧
    ((getPageProgressRef ⟨1, fun _ => ⟨3, 7⟩⟩ 0).1.write
        (getPageProgressRef ⟨1, fun _ => ⟨3, 7⟩⟩ 0).2 ⟨9, 9⟩).read 0 = ⟨3, 7⟩ ∧
    (getLogsRef ⟨1, fun _ => ["a"]⟩ 0).1.read 0 = ["a"] := by
  have h := c9_accessors_return_copies ⟨1, fun _ => ⟨3, 7⟩⟩ 0 (by decide)
    ⟨1, fun _ => ["a"]⟩ 0 (by decide)
  exact ⟨h.1.1, h.1.2.2.2.1 ⟨9, 9⟩, h.2.2.2.1⟩

/-! ### File formats, extensions, stems and MIME types -/

/-- `filename.lower().split('.')[-1]`: the segment after the last dot, or the
whole string when there is no dot (basic `get_file_format`, line 214). -/
def lastSeg (cs : List Char) : List Char :=
  (cs.reverse.takeWhile (fun c => c ≠ '.')).reverse

/-- First format of the mapping whose extension list contains `ext`
(the `for format_type, extensions in FormatToExtensions.items()` loop of the
basic `get_file_format`; the mapping itself belongs to the external docling
library and is kept as a parameter). -/
def findFormat (ext : List Char) : List (String × List String) → Option String
  | [] => none
  | (fmt, exts) :: t => if exts.any (fun e => e.toList == ext) then some fmt else findFormat ext t

/-- Basic `get_file_format` (docling_ui.py lines 209-220), parametric in the
external library's `FormatToExtensions` mapping `m`. -/
def getFileFormatB (m : List (String × List String)) (filename : String) : Option String :=
  if filename = "" then none
  else findFormat (lastSeg (lowerList filename.toList)) m

/-- `pathlib.PurePath.suffix`: with `i` the index of the last dot, the suffix is
`name[i:]` when `0 < i < len(name) - 1` and empty otherwise (so dotfiles such
as `".pdf"` and names with a trailing dot have no suffix). -/
def pathSuffix (cs : List Char) : List Char :=
  let afterRev := cs.reverse.takeWhile (fun c => c ≠ '.')
  match cs.reverse.dropWhile (fun c => c ≠ '.') with
  | [] => []
  | _ :: preRev =>
    if preRev = [] then []
    else if afterRev = [] then []
    else '.' :: afterRev.reverse

/-- `pathlib.PurePath.stem`: the name with its suffix removed. -/
def pathStem (cs : List Char) : List Char :=
  cs.take (cs.length - (pathSuffix cs).length)

/-- The inline `format_mapping` of the enhanced `get_file_format` (lines 161-174). -/
def enhFormatMapping : List (String × String) :=
  [(".pdf", "PDF"), (".docx", "DOCX"), (".pptx", "PPTX"), (".html", "HTML"), (".htm", "HTML"),
   (".png", "Image"), (".jpg", "Image"), (".jpeg", "Image"), (".tiff", "Image"),
   (".bmp", "Image"), (".adoc", "AsciiDoc"), (".md", "Markdown")]

/-- Python `dict.get(k)` on an association list with distinct keys. -/
def dictGet : List (String × String) → String → Option String
  | [], _ => none
  | (k', v) :: t, k => if k' = k then some v else dictGet t k

/-- Enhanced `get_file_format` (docling-enhanced/docling_ui.py lines 158-175):
`format_mapping.get(Path(filename).suffix.lower())`. -/
def getFileFormatE (filename : String) : Option String :=
  dictGet enhFormatMapping (lowerList (pathSuffix filename.toList)).asString

/-- Enhanced `get_mime_type` (lines 141-149): `mime_types.get(format_type, 'text/plain')`. -/
def getMimeType (formatType : String) : String :=
  if formatType = "markdown" then "text/markdown"
  else if formatType = "html" then "text/html"
  else if formatType = "json" then "application/json"
  else if formatType = "text" then "text/plain"
  else "text/plain"

/-- The `{'markdown': 'md', ...}.get(result['format'], 'txt')` dictionary used by
the basic `display_results` for both the per-file download name (lines 558-563)
and the zip entry name (lines 596-601). -/
def extForFormatB (fmt : String) : String :=
  if fmt = "markdown" then "md"
  else if fmt = "html" then "html"
  else if fmt = "json" then "json"
  else if fmt = "text" then "txt"
  else "txt"

/-- `mime=f"text/{file_extension}"` of the basic per-file download button
(line 571). -/
def mimePerFileB (fmt : String) : String := "text/" ++ extForFormatB fmt

/-- `result['filename'].rsplit('.', 1)[0]`: everything before the last dot, or
the whole name when there is no dot (basic display_results, lines 565 and 603). -/
def rsplitStem (cs : List Char) : List Char :=
  match cs.reverse.dropWhile (fun c => c ≠ '.') with
  | [] => cs
  | _ :: preRev => preRev.reverse

example : getFileFormatE ".pdf" = none := by decide
example : getFileFormatE "a.pdf" = some "PDF" := by decide
example : getFileFormatE "A.PdF" = some "PDF" := by decide
example : getFileFormatB [("PDF", ["pdf"])] "report.V2.PDF" = some "PDF" := by decide
example : getFileFormatB [("PDF", ["pdf"])] "pdf" = some "PDF" := by decide
example : (rsplitStem "archive.tar.gz".toList).asString = "archive.tar" := by decide
example : (rsplitStem ".pdf".toList).asString = "" := by decide
example : (pathStem ".pdf".toList).asString = ".pdf" := by decide
example : (pathStem "a.tar.gz".toList).asString = "a.tar" := by decide
example : (pathStem "a.".toList).asString = "a." := by decide

/-! ### The conversion loops

The external library (`converter.convert` plus the `export_to_*` methods) is
the opaque collaborator: it is modelled as a function from the uploaded file
to either a parsed document or a raised exception. Temporary files are
modelled by the index of the loop iteration that created them (each
`NamedTemporaryFile` has a fresh path). -/

/-- A Python exception: a type name and a message; `str(e)` is the message. -/
structure Exc where
  ty : String
  msg : String
deriving DecidableEq, Repr

/-- Python `str(e)`. -/
def strExc (e : Exc) : String := e.msg

/-- An opaque parsed document, described by its four exports. -/
structure Doc where
  md : String
  html : String
  json : String
  text : String
deriving DecidableEq, Repr

/-- An uploaded file (name and opaque bytes; only the name matters here). -/
structure UpFile where
  name : String
deriving DecidableEq, Repr

/-- Output-format dispatch of the basic `convert_documents` (lines 436-445);
any unknown format string falls back to markdown. -/
def exportBasic (d : Doc) (fmt : String) : String :=
  if fmt = "markdown" then d.md
  else if fmt = "html" then d.html
  else if fmt = "json" then d.json
  else if fmt = "text" then d.text
  else d.md

/-- Output-format dispatch of the enhanced `convert_files` (lines 315-326):
content together with the chosen extension; the `else` branch is Text. -/
def exportEnh (d : Doc) (fmt : String) : String × String :=
  if fmt = "Markdown" then (d.md, "md")
  else if fmt = "HTML" then (d.html, "html")
  else if fmt = "JSON" then (d.json, "json")
  else (d.text, "txt")

/-- The extension component of `exportEnh`, a function of the format alone. -/
def extForFormatE (fmt : String) : String :=
  if fmt = "Markdown" then "md"
  else if fmt = "HTML" then "html"
  else if fmt = "JSON" then "json"
  else "txt"

/-- `'status'` of a basic result dict. -/
inductive RStatus where
  | success
  | error
deriving DecidableEq, Repr

/-- A result dict of the basic `convert_documents`: `content` is present
exactly on the success branch, `message` exactly on the error branches
(`format` is stored only with successes). -/
structure BRecord where
  filename : String
  status : RStatus
  content : Option String
  message : Option String
  format : Option String
deriving DecidableEq, Repr

/-- A result dict of the enhanced `convert_files`. -/
structure ERecord where
  filename : String
  success : Bool
  content : Option String
  error : Option String
  extension : Option String
deriving DecidableEq, Repr

/-- Loop state of the basic `convert_documents`: the `results` list and the
set of temporary files currently on disk. -/
structure BState where
  results : List BRecord
  tmp : List Nat
deriving DecidableEq, Repr

/-- `'不支持的文件格式'` (line 383). -/
def unsupportedMsg : String := "不支持的文件格式"

/-- One iteration of the basic per-file loop (lines 366-488): an unsupported
format appends an error record and continues without creating a temporary
file; otherwise the temporary file `i` is created, the library is invoked,
and on success the record is appended and the temporary file unlinked
(line 472) while on an exception the error record is appended and — the
`except` block having no cleanup — the temporary file stays on disk. -/
def processFileB (m : List (String × List String)) (lib : UpFile → Except Exc Doc)
    (fmt : String) (st : BState) (i : Nat) (f : UpFile) : BState :=
  match getFileFormatB m f.name with
  | none =>
    { st with results := st.results ++ [⟨f.name, .error, none, some unsupportedMsg, none⟩] }
  | some _ =>
    let tmp₁ := st.tmp ++ [i]
    match lib f with
    | .ok d =>
      ⟨st.results ++ [⟨f.name, .success, some (exportBasic d fmt), none, some fmt⟩],
        tmp₁.erase i⟩
    | .error e =>
      ⟨st.results ++ [⟨f.name, .error, none, some (strExc e), none⟩], tmp₁⟩

/-- The basic `convert_documents` batch loop over the enumerated uploads. -/
def convertDocumentsB (m : List (String × List String)) (lib : UpFile → Except Exc Doc)
    (fmt : String) (files : List UpFile) : BState :=
  (files.enum).foldl (fun st p => processFileB m lib fmt st p.1 p.2) ⟨[], []⟩

/-- The result record the basic loop produces for a single file. -/
def recordOfB (m : List (String × List String)) (lib : UpFile → Except Exc Doc)
    (fmt : String) (f : UpFile) : BRecord :=
  match getFileFormatB m f.name with
  | none => ⟨f.name, .error, none, some unsupportedMsg, none⟩
  | some _ =>
    match lib f with
    | .ok d => ⟨f.name, .success, some (exportBasic d fmt), none, some fmt⟩
    | .error e => ⟨f.name, .error, none, some (strExc e), none⟩

/-- Whether the library raises on this file. -/
def libRaises (lib : UpFile → Except Exc Doc) (f : UpFile) : Bool :=
  match lib f with
  | .ok _ => false
  | .error _ => true

/-- Loop state of the enhanced `convert_files`. -/
structure EState where
  results : List ERecord
  tmp : List Nat
deriving DecidableEq, Repr

/-- The enhanced error-message enrichment (lines 350-354): exceptions whose
string contains `"No such file or directory"` get an explanatory reformat. -/
def enhanceErrMsg (msg : String) : String :=
  if containsList "No such file or directory".toList msg.toList then
    "文件访问错误: " ++ msg ++ "\n可能原因:\n- 临时文件创建失败\n- 文件路径包含特殊字符\n- 磁盘空间不足"
  else msg

/-- One iteration of the enhanced per-file loop (lines 257-369): the temporary
file is created, the library invoked, and the temporary file unlinked on both
the success path (lines 342-346) and the exception path (lines 365-369). -/
def processFileE (lib : UpFile → Except Exc Doc) (fmt : String)
    (st : EState) (i : Nat) (f : UpFile) : EState :=
  let tmp₁ := st.tmp ++ [i]
  match lib f with
  | .ok d =>
    ⟨st.results ++ [⟨f.name, true, some (exportEnh d fmt).1, none, some (exportEnh d fmt).2⟩],
      tmp₁.erase i⟩
  | .error e =>
    ⟨st.results ++ [⟨f.name, false, none, some (enhanceErrMsg (strExc e)), none⟩],
      tmp₁.erase i⟩

/-- The enhanced `convert_files` batch loop. -/
def convertFilesE (lib : UpFile → Except Exc Doc) (fmt : String)
    (files : List UpFile) : EState :=
  (files.enum).foldl (fun st p => processFileE lib fmt st p.1 p.2) ⟨[], []⟩

/-- The result record the enhanced loop produces for a single file. -/
def recordOfE (lib : UpFile → Except Exc Doc) (fmt : String) (f : UpFile) : ERecord :=
  match lib f with
  | .ok d => ⟨f.name, true, some (exportEnh d fmt).1, none, some (exportEnh d fmt).2⟩
  | .error e => ⟨f.name, false, none, some (enhanceErrMsg (strExc e)), none⟩

theorem foldB_spec (m : List (String × List String)) (lib : UpFile → Except Exc Doc)
    (fmt : String) :
    ∀ (files : List UpFile) (k : Nat) (st : BState), (∀ j ∈ st.tmp, j < k) →
      ((files.enumFrom k).foldl (fun s p => processFileB m lib fmt s p.1 p.2) st).results =
        st.results ++ files.map (recordOfB m lib fmt) ∧
      ((files.enumFrom k).foldl (fun s p => processFileB m lib fmt s p.1 p.2) st).tmp =
        st.tmp ++ ((files.enumFrom k).filter
          (fun p => (getFileFormatB m p.2.name).isSome && libRaises lib p.2)).map Prod.fst ∧
      (∀ j ∈ ((files.enumFrom k).foldl (fun s p => processFileB m lib fmt s p.1 p.2) st).tmp,
        j < k + files.length) := by
  intro files
  induction files with
  | nil =>
    intro k st hb
    refine ⟨by simp, by simp, ?_⟩
    intro j hj
    simp only [List.enumFrom_nil, List.foldl_nil] at hj
    have := hb j hj
    omega
  | cons f fs ih =>
    intro k st hb
    have hknotin : k ∉ st.tmp := fun hk => absurd (hb k hk) (by omega)
    rw [List.enumFrom_cons]
    simp only [List.foldl_cons, List.filter_cons]
    rcases hf : getFileFormatB m f.name with _ | v
    · have hstep : processFileB m lib fmt st (k, f).1 (k, f).2 =
          { st with results := st.results ++ [⟨f.name, .error, none, some unsupportedMsg, none⟩] } := by
        simp only [processFileB, hf]
      have hrec : recordOfB m lib fmt f = ⟨f.name, .error, none, some unsupportedMsg, none⟩ := by
        simp only [recordOfB, hf]
      rw [hstep, if_neg (by simp)]
      obtain ⟨ih1, ih2, ih3⟩ := ih (k + 1)
        { st with results := st.results ++ [⟨f.name, .error, none, some unsupportedMsg, none⟩] }
        (fun j hj => by have := hb j hj; omega)
      refine ⟨?_, ?_, ?_⟩
      · rw [ih1]
        simp [hrec]
      · simpa using ih2
      · intro j hj
        have := ih3 j hj
        simp only [List.length_cons]
        omega
    · rcases hl : lib f with e | d
      · -- exception: the temporary file k is left behind
        have hstep : processFileB m lib fmt st (k, f).1 (k, f).2 =
            ⟨st.results ++ [⟨f.name, .error, none, some (strExc e), none⟩], st.tmp ++ [k]⟩ := by
          simp only [processFileB, hf, hl]
        have hrec : recordOfB m lib fmt f = ⟨f.name, .error, none, some (strExc e), none⟩ := by
          simp only [recordOfB, hf, hl]
        rw [hstep, if_pos (by simp [libRaises, hl])]
        obtain ⟨ih1, ih2, ih3⟩ := ih (k + 1)
          ⟨st.results ++ [⟨f.name, .error, none, some (strExc e), none⟩], st.tmp ++ [k]⟩
          (fun j hj => by
            simp only [List.mem_append, List.mem_singleton] at hj
            rcases hj with hj | rfl
            · have := hb j hj; omega
            · omega)
        refine ⟨?_, ?_, ?_⟩
        · rw [ih1]
          simp [hrec]
        · rw [ih2]
          simp
        · intro j hj
          have := ih3 j hj
          simp only [List.length_cons]
          omega
      · -- success: the temporary file k is unlinked
        have herase : (st.tmp ++ [k]).erase k = st.tmp := by
          rw [List.erase_append_right _ hknotin, List.erase_cons_head, List.append_nil]
        have hstep : processFileB m lib fmt st (k, f).1 (k, f).2 =
            ⟨st.results ++ [⟨f.name, .success, some (exportBasic d fmt), none, some fmt⟩],
              st.tmp⟩ := by
          simp only [processFileB, hf, hl]
          rw [herase]
        have hrec : recordOfB m lib fmt f =
            ⟨f.name, .success, some (exportBasic d fmt), none, some fmt⟩ := by
          simp only [recordOfB, hf, hl]
        rw [hstep, if_neg (by simp [libRaises, hl])]
        obtain ⟨ih1, ih2, ih3⟩ := ih (k + 1)
          ⟨st.results ++ [⟨f.name, .success, some (exportBasic d fmt), none, some fmt⟩], st.tmp⟩
          (fun j hj => by have := hb j hj; omega)
        refine ⟨?_, ?_, ?_⟩
        · rw [ih1]
          simp [hrec]
        · simpa using ih2
        · intro j hj
          have := ih3 j hj
          simp only [List.length_cons]
          omega

theorem foldE_spec (lib : UpFile → Except Exc Doc) (fmt : String) :
    ∀ (files : List UpFile) (k : Nat) (st : EState), (∀ j ∈ st.tmp, j < k) →
      ((files.enumFrom k).foldl (fun s p => processFileE lib fmt s p.1 p.2) st).results =
        st.results ++ files.map (recordOfE lib fmt) ∧
      ((files.enumFrom k).foldl (fun s p => processFileE lib fmt s p.1 p.2) st).tmp = st.tmp := by
  intro files
  induction files with
  | nil =>
    intro k st hb
    exact ⟨by simp, by simp⟩
  | cons f fs ih =>
    intro k st hb
    have hknotin : k ∉ st.tmp := fun hk => absurd (hb k hk) (by omega)
    have herase : (st.tmp ++ [k]).erase k = st.tmp := by
      rw [List.erase_append_right _ hknotin, List.erase_cons_head, List.append_nil]
    rw [List.enumFrom_cons]
    simp only [List.foldl_cons]
    rcases hl : lib f with e | d
    · have hstep : processFileE lib fmt st (k, f).1 (k, f).2 =
          ⟨st.results ++ [⟨f.name, false, none, some (enhanceErrMsg (strExc e)), none⟩],
            st.tmp⟩ := by
        simp only [processFileE, hl]
        rw [herase]
      have hrec : recordOfE lib fmt f =
          ⟨f.name, false, none, some (enhanceErrMsg (strExc e)), none⟩ := by
        simp only [recordOfE, hl]
      rw [hstep]
      obtain ⟨ih1, ih2⟩ := ih (k + 1)
        ⟨st.results ++ [⟨f.name, false, none, some (enhanceErrMsg (strExc e)), none⟩], st.tmp⟩
        (fun j hj => by have := hb j hj; omega)
      refine ⟨?_, ih2⟩
      rw [ih1]
      simp [hrec]
    · have hstep : processFileE lib fmt st (k, f).1 (k, f).2 =
          ⟨st.results ++
            [⟨f.name, true, some (exportEnh d fmt).1, none, some (exportEnh d fmt).2⟩],
            st.tmp⟩ := by
        simp only [processFileE, hl]
        rw [herase]
      have hrec : recordOfE lib fmt f =
          ⟨f.name, true, some (exportEnh d fmt).1, none, some (exportEnh d fmt).2⟩ := by
        simp only [recordOfE, hl]
      rw [hstep]
      obtain ⟨ih1, ih2⟩ := ih (k + 1)
        ⟨st.results ++
          [⟨f.name, true, some (exportEnh d fmt).1, none, some (exportEnh d fmt).2⟩], st.tmp⟩
        (fun j hj => by have := hb j hj; omega)
      refine ⟨?_, ih2⟩
      rw [ih1]
      simp [hrec]

theorem resultsB_eq_map (m : List (String × List String)) (lib : UpFile → Except Exc Doc)
    (fmt : String) (files : List UpFile) :
    (convertDocumentsB m lib fmt files).results = files.map (recordOfB m lib fmt) := by
  have h := (foldB_spec m lib fmt files 0 ⟨[], []⟩ (by simp)).1
  simpa [convertDocumentsB, List.enum] using h

theorem resultsE_eq_map (lib : UpFile → Except Exc Doc) (fmt : String) (files : List UpFile) :
    (convertFilesE lib fmt files).results = files.map (recordOfE lib fmt) := by
  have h := (foldE_spec lib fmt files 0 ⟨[], []⟩ (by simp)).1
  simpa [convertFilesE, List.enum] using h

/-- C1: in both variants, an exception raised while converting one file is
caught inside the per-file loop and stringified into that file's result
record, and the batch produces exactly one record per uploaded file, each
depending only on that file and the library's behaviour on it — so a failure
of file `i` never prevents the record of any file `j > i`. -/
theorem c1_per_file_error_isolation (m : List (String × List String))
    (lib : UpFile → Except Exc Doc) (fmt : String) (files : List UpFile) :
    (convertDocumentsB m lib fmt files).results = files.map (recordOfB m lib fmt) ∧
    (convertDocumentsB m lib fmt files).results.length = files.length ∧
    (convertFilesE lib fmt files).results = files.map (recordOfE lib fmt) ∧
    (convertFilesE lib fmt files).results.length = files.length := by
  refine ⟨resultsB_eq_map m lib fmt files, ?_, resultsE_eq_map lib fmt files, ?_⟩
  · rw [resultsB_eq_map m lib fmt files, List.length_map]
  · rw [resultsE_eq_map lib fmt files, List.length_map]

/-- C2 (amended): the enhanced variant unlinks the temporary file on both the
success and the exception path, so its loop ends with no temporary file left;
the basic variant unlinks only on the success path — the temporary files left
behind are exactly those of the supported-format files whose conversion
raised. -/
theorem c2_temp_file_cleanup (m : List (String × List String))
    (lib : UpFile → Except Exc Doc) (fmt : String) (files : List UpFile) :
    (convertFilesE lib fmt files).tmp = [] ∧
    (convertDocumentsB m lib fmt files).tmp =
      ((files.enum).filter
        (fun p => (getFileFormatB m p.2.name).isSome && libRaises lib p.2)).map Prod.fst := by
  constructor
  · have h := (foldE_spec lib fmt files 0 ⟨[], []⟩ (by simp)).2
    simpa [convertFilesE, List.enum] using h
  · have h := (foldB_spec m lib fmt files 0 ⟨[], []⟩ (by simp)).2.1
    simpa [convertDocumentsB, List.enum] using h

/-- Counterexample to C2 as stated: in the basic variant, a single supported
file whose conversion raises leaves its temporary file (index `0`) on disk
when the loop finishes — the `except` block performs no cleanup. -/
theorem c2_counterexample :
    (convertDocumentsB [("PDF", ["pdf"])] (fun _ => Except.error ⟨"RuntimeError", "boom"⟩)
      "markdown" [⟨"a.pdf"⟩]).tmp = [0] ∧ ([0] : List Nat) ≠ [] := by
  constructor
  · decide
  · decide

/-- C3: every result record appended during a conversion run of either
variant is exclusively a success record carrying content or a failure record
carrying an error message: success records have a content field and no
message, failure records have a message and no content field. -/
theorem c3_success_xor_failure (m : List (String × List String))
    (lib : UpFile → Except Exc Doc) (fmt : String) (files : List UpFile)
    (r : BRecord) (r' : ERecord) :
    (r ∈ (convertDocumentsB m lib fmt files).results →
      (r.status = RStatus.success → (∃ c, r.content = some c) ∧ r.message = none) ∧
      (r.status = RStatus.error → (∃ msg, r.message = some msg) ∧ r.content = none)) ∧
    (r' ∈ (convertFilesE lib fmt files).results →
      (r'.success = true → (∃ c, r'.content = some c) ∧ r'.error = none) ∧
      (r'.success = false → (∃ msg, r'.error = some msg) ∧ r'.content = none)) := by
  constructor
  · intro hr
    rw [resultsB_eq_map m lib fmt files] at hr
    obtain ⟨f, _, rfl⟩ := List.mem_map.mp hr
    unfold recordOfB
    rcases getFileFormatB m f.name with _ | v
    · exact ⟨fun h => by simp_all, fun _ => ⟨⟨unsupportedMsg, rfl⟩, rfl⟩⟩
    · rcases lib f with e | d
      · exact ⟨fun h => by simp_all, fun _ => ⟨⟨strExc e, rfl⟩, rfl⟩⟩
      · exact ⟨fun _ => ⟨⟨exportBasic d fmt, rfl⟩, rfl⟩, fun h => by simp_all⟩
  · intro hr
    rw [resultsE_eq_map lib fmt files] at hr
    obtain ⟨f, _, rfl⟩ := List.mem_map.mp hr
    unfold recordOfE
    rcases lib f with e | d
    · exact ⟨fun h => by simp_all, fun _ => ⟨⟨enhanceErrMsg (strExc e), rfl⟩, rfl⟩⟩
    · exact ⟨fun _ => ⟨⟨(exportEnh d fmt).1, rfl⟩, rfl⟩, fun h => by simp_all⟩

/-- Witness for C3: the two-file batch where the first file succeeds and the
second raises, in the basic variant. -/
theorem c3_witness :
    ((⟨"a.pdf", RStatus.success, some "MD", none, some "markdown"⟩ : BRecord).status =
        RStatus.success →
      (∃ c, (⟨"a.pdf", RStatus.success, some "MD", none, some "markdown"⟩ : BRecord).content =
        some c) ∧
      (⟨"a.pdf", RStatus.success, some "MD", none, some "markdown"⟩ : BRecord).message =
        none) ∧
    ((⟨"b.pdf", false, none, some "boom", none⟩ : ERecord).success = false →
      (∃ msg, (⟨"b.pdf", false, none, some "boom", none⟩ : ERecord).error = some msg) ∧
      (⟨"b.pdf", false, none, some "boom", none⟩ : ERecord).content = none) := by
  have h := c3_success_xor_failure [("PDF", ["pdf"])]
    (fun f => if f.name = "a.pdf" then Except.ok ⟨"MD", "H", "J", "T"⟩
      else Except.error ⟨"RuntimeError", "boom"⟩)
    "markdown" [⟨"a.pdf"⟩, ⟨"b.pdf"⟩]
    ⟨"a.pdf", RStatus.success, some "MD", none, some "markdown"⟩
    ⟨"b.pdf", false, none, some "boom", none⟩
  exact ⟨(h.1 (by decide)).1, (h.2 (by decide)).2⟩

/-! ### Download names, zip archives (C4, C5) -/

/-- Output filename of the basic variant, used identically for the per-file
download (line 565) and for each zip entry (line 603):
`f"{result['filename'].rsplit('.', 1)[0]}.{file_extension}"`. -/
def downloadNameB (r : BRecord) : String :=
  (rsplitStem r.filename.toList).asString ++ "." ++ extForFormatB (r.format.getD "")

/-- `data=result['content']` of the basic per-file download button (line 569). -/
def downloadDataB (r : BRecord) : String := r.content.getD ""

/-- Output filename of the enhanced variant, used identically for the per-file
download (line 433) and for each zip entry (line 391):
`f"{Path(result['filename']).stem}.{result['extension']}"`. -/
def downloadNameE (r : ERecord) : String :=
  (pathStem r.filename.toList).asString ++ "." ++ r.extension.getD ""

/-- `data=result['content']` of the enhanced per-file download button (line 438). -/
def downloadDataE (r : ERecord) : String := r.content.getD ""

/-- The zip-building loop of the basic `display_results` (lines 593-604), as
the list of `(arcname, data)` pairs passed to `zip_file.writestr`. -/
def zipEntriesB (results : List BRecord) : List (String × String) :=
  results.foldl (fun acc r =>
    if r.status = RStatus.success then acc ++ [(downloadNameB r, r.content.getD "")]
    else acc) []

/-- The zip-building loop of the enhanced `convert_files` (lines 388-392). -/
def zipEntriesE (results : List ERecord) : List (String × String) :=
  results.foldl (fun acc r =>
    if r.success then acc ++ [(downloadNameE r, r.content.getD "")]
    else acc) []

theorem zipEntriesB_fold (results : List BRecord) :
    ∀ acc : List (String × String),
      results.foldl (fun acc r =>
        if r.status = RStatus.success then acc ++ [(downloadNameB r, r.content.getD "")]
        else acc) acc =
      acc ++ (results.filter (fun r => r.status == RStatus.success)).map
        (fun r => (downloadNameB r, r.content.getD "")) := by
  induction results with
  | nil => intro acc; simp
  | cons r rs ih =>
    intro acc
    rw [List.foldl_cons, List.filter_cons]
    by_cases h : r.status = RStatus.success
    · rw [if_pos h, ih, if_pos (by simp [h])]
      simp
    · rw [if_neg h, ih, if_neg (by simp [h])]

theorem zipEntriesE_fold (results : List ERecord) :
    ∀ acc : List (String × String),
      results.foldl (fun acc r =>
        if r.success then acc ++ [(downloadNameE r, r.content.getD "")]
        else acc) acc =
      acc ++ (results.filter (fun r => r.success)).map
        (fun r => (downloadNameE r, r.content.getD "")) := by
  induction results with
  | nil => intro acc; simp
  | cons r rs ih =>
    intro acc
    rw [List.foldl_cons, List.filter_cons]
    by_cases h : r.success = true
    · rw [if_pos h, ih, if_pos h]
      simp
    · rw [if_neg h, ih, if_neg h]

/-- C4: in both variants the zip archive contains exactly one entry per
success record and none for failure records; each entry is named by the
original filename's stem joined with the output extension, and its data is
that record's content. -/
theorem c4_zip_contains_exactly_successes (results : List BRecord)
    (results' : List ERecord) :
    zipEntriesB results = (results.filter (fun r => r.status == RStatus.success)).map
      (fun r => (downloadNameB r, r.content.getD "")) ∧
    (zipEntriesB results).length =
      (results.filter (fun r => r.status == RStatus.success)).length ∧
    zipEntriesE results' = (results'.filter (fun r => r.success)).map
      (fun r => (downloadNameE r, r.content.getD "")) ∧
    (zipEntriesE results').length = (results'.filter (fun r => r.success)).length := by
  refine ⟨by simpa using zipEntriesB_fold results [], ?_,
    by simpa using zipEntriesE_fold results' [], ?_⟩
  · rw [zipEntriesB]
    rw [zipEntriesB_fold results []]
    simp
  · rw [zipEntriesE]
    rw [zipEntriesE_fold results' []]
    simp

theorem exportEnh_snd (d : Doc) (fmt : String) : (exportEnh d fmt).2 = extForFormatE fmt := by
  unfold exportEnh extForFormatE
  split_ifs <;> rfl

/-- C5: for every success record of a conversion run, the data handed to the
per-file download button is byte-for-byte the record's content field, and the
offered filename is the original filename's stem joined with the extension
derived from the chosen output format. -/
theorem c5_download_payload (m : List (String × List String))
    (lib : UpFile → Except Exc Doc) (fmt : String) (files : List UpFile)
    (r : BRecord) (r' : ERecord) :
    (r ∈ (convertDocumentsB m lib fmt files).results → r.status = RStatus.success →
      (∃ c, r.content = some c ∧ downloadDataB r = c) ∧
      r.format = some fmt ∧
      downloadNameB r = (rsplitStem r.filename.toList).asString ++ "." ++ extForFormatB fmt) ∧
    (r' ∈ (convertFilesE lib fmt files).results → r'.success = true →
      (∃ c, r'.content = some c ∧ downloadDataE r' = c) ∧
      r'.extension = some (extForFormatE fmt) ∧
      downloadNameE r' = (pathStem r'.filename.toList).asString ++ "." ++ extForFormatE fmt) := by
  constructor
  · intro hr hs
    rw [resultsB_eq_map m lib fmt files] at hr
    obtain ⟨f, _, rfl⟩ := List.mem_map.mp hr
    unfold recordOfB at hs ⊢
    revert hs
    rcases getFileFormatB m f.name with _ | v
    · intro hs
      exact RStatus.noConfusion hs
    · rcases lib f with e | d
      · intro hs
        exact RStatus.noConfusion hs
      · intro _
        exact ⟨⟨exportBasic d fmt, rfl, rfl⟩, rfl, rfl⟩
  · intro hr hs
    rw [resultsE_eq_map lib fmt files] at hr
    obtain ⟨f, _, rfl⟩ := List.mem_map.mp hr
    unfold recordOfE at hs ⊢
    revert hs
    rcases lib f with e | d
    · intro hs
      exact Bool.noConfusion hs
    · intro _
      refine ⟨⟨(exportEnh d fmt).1, rfl, rfl⟩, congrArg some (exportEnh_snd d fmt), ?_⟩
      show (pathStem f.name.toList).asString ++ "." ++ (exportEnh d fmt).2 =
        (pathStem f.name.toList).asString ++ "." ++ extForFormatE fmt
      rw [exportEnh_snd]

/-- Witness for C5: a one-file batch converted to markdown in both variants. -/
theorem c5_witness :
    (∃ c, (⟨"a.pdf", RStatus.success, some "MD", none, some "markdown"⟩ : BRecord).content =
        some c ∧
      downloadDataB ⟨"a.pdf", RStatus.success, some "MD", none, some "markdown"⟩ = c) ∧
    downloadNameB ⟨"a.pdf", RStatus.success, some "MD", none, some "markdown"⟩ = "a.md" ∧
    (∃ c, (⟨"a.pdf", true, some "MD", none, some "md"⟩ : ERecord).content = some c ∧
      downloadDataE ⟨"a.pdf", true, some "MD", none, some "md"⟩ = c) ∧
    downloadNameE ⟨"a.pdf", true, some "MD", none, some "md"⟩ = "a.md" := by
  have h := c5_download_payload [("PDF", ["pdf"])]
    (fun _ => Except.ok ⟨"MD", "H", "J", "T"⟩) "markdown" [⟨"a.pdf"⟩]
    ⟨"a.pdf", RStatus.success, some "MD", none, some "markdown"⟩
    ⟨"a.pdf", true, some "MD", none, some "md"⟩
  have g := c5_download_payload [("PDF", ["pdf"])]
    (fun _ => Except.ok ⟨"MD", "H", "J", "T"⟩) "Markdown" [⟨"a.pdf"⟩]
    ⟨"a.pdf", RStatus.success, some "MD", none, some "markdown"⟩
    ⟨"a.pdf", true, some "MD", none, some "md"⟩
  have h1 := h.1 (by decide) rfl
  have h2 := g.2 (by decide) rfl
  refine ⟨h1.1, ?_, h2.1, ?_⟩
  · rw [h1.2.2]
    decide
  · rw [h2.2.2]
    decide

/-- C7 (amended): the MIME type depends only on the chosen output format in
both variants, but only the enhanced variant's `get_mime_type` realises the
stated table (markdown ↦ text/markdown, html ↦ text/html, json ↦
application/json, text ↦ text/plain, default text/plain); the basic variant's
per-file download instead attaches `"text/" + extension`, i.e. text/md,
text/html, text/json and text/txt, with default text/txt. -/
theorem c7_mime_mapping :
    getMimeType "markdown" = "text/markdown" ∧
    getMimeType "html" = "text/html" ∧
    getMimeType "json" = "application/json" ∧
    getMimeType "text" = "text/plain" ∧
    (∀ s, s ≠ "markdown" → s ≠ "html" → s ≠ "json" → s ≠ "text" →
      getMimeType s = "text/plain") ∧
    mimePerFileB "markdown" = "text/md" ∧
    mimePerFileB "html" = "text/html" ∧
    mimePerFileB "json" = "text/json" ∧
    mimePerFileB "text" = "text/txt" ∧
    (∀ s, s ≠ "markdown" → s ≠ "html" → s ≠ "json" → s ≠ "text" →
      mimePerFileB s = "text/txt") := by
  refine ⟨rfl, rfl, rfl, rfl, ?_, rfl, rfl, rfl, rfl, ?_⟩
  · intro s h1 h2 h3 h4
    rw [getMimeType, if_neg h1, if_neg h2, if_neg h3, if_neg h4]
  · intro s h1 h2 h3 h4
    rw [mimePerFileB, extForFormatB, if_neg h1, if_neg h2, if_neg h3, if_neg h4]
    decide

/-- Witness for C7 at the out-of-table format string `"csv"`. -/
theorem c7_witness :
    getMimeType "csv" = "text/plain" ∧ mimePerFileB "csv" = "text/txt" :=
  ⟨c7_mime_mapping.2.2.2.2.1 "csv" (by decide) (by decide) (by decide) (by decide),
    c7_mime_mapping.2.2.2.2.2.2.2.2.2 "csv" (by decide) (by decide) (by decide) (by decide)⟩

/-- Counterexample to C7 as stated: the basic variant's per-file download for
the markdown output format carries MIME type `text/md`, not the claimed
`text/markdown` (and json gets `text/json`, not `application/json`). -/
theorem c7_counterexample :
    mimePerFileB "markdown" = "text/md" ∧ "text/md" ≠ "text/markdown" ∧
    mimePerFileB "json" = "text/json" ∧ "text/json" ≠ "application/json" := by
  refine ⟨rfl, by decide, rfl, by decide⟩

/-- C8 (amended): the basic variant stringifies every caught exception
uniformly as `str(e)`; the enhanced variant also starts from `str(e)` but
gives exceptions whose string contains `"No such file or directory"` a
distinct, specially formatted message. -/
theorem c8_error_stringification (m : List (String × List String))
    (lib : UpFile → Except Exc Doc) (fmt : String) (f : UpFile) (e : Exc) :
    (lib f = Except.error e → (getFileFormatB m f.name).isSome = true →
      recordOfB m lib fmt f = ⟨f.name, RStatus.error, none, some (strExc e), none⟩) ∧
    (lib f = Except.error e →
      recordOfE lib fmt f = ⟨f.name, false, none, some (enhanceErrMsg (strExc e)), none⟩) ∧
    (containsList "No such file or directory".toList (strExc e).toList = false →
      enhanceErrMsg (strExc e) = strExc e) ∧
    (containsList "No such file or directory".toList (strExc e).toList = true →
      enhanceErrMsg (strExc e) ≠ strExc e) := by
  refine ⟨?_, ?_, ?_, ?_⟩
  · intro hl hfmt
    rcases hf : getFileFormatB m f.name with _ | v
    · rw [hf] at hfmt
      exact Bool.noConfusion hfmt
    · simp only [recordOfB, hf, hl]
  · intro hl
    simp only [recordOfE, hl]
  · intro hc
    rw [enhanceErrMsg, if_neg (by rw [hc]; decide)]
  · intro hc
    rw [enhanceErrMsg, if_pos hc]
    intro heq
    have hlen := congrArg String.length heq
    rw [String.length_append, String.length_append] at hlen
    have hpos : 0 < ("文件访问错误: " : String).length := by decide
    omega

/-- Witness for C8: a run whose single file raises `RuntimeError("boom")`. -/
theorem c8_witness :
    recordOfB [("PDF", ["pdf"])] (fun _ => Except.error ⟨"RuntimeError", "boom"⟩) "markdown"
      ⟨"a.pdf"⟩ = ⟨"a.pdf", RStatus.error, none, some "boom", none⟩ ∧
    enhanceErrMsg (strExc ⟨"RuntimeError", "boom"⟩) = "boom" := by
  have h := c8_error_stringification [("PDF", ["pdf"])]
    (fun _ => Except.error ⟨"RuntimeError", "boom"⟩) "markdown" ⟨"a.pdf"⟩
    ⟨"RuntimeError", "boom"⟩
  exact ⟨h.1 rfl (by decide), h.2.2.1 (by decide)⟩

/-- Counterexample to C8 as stated: the enhanced variant does not stringify a
`FileNotFoundError` uniformly — `str(e)` is replaced by a specially formatted
message. -/
theorem c8_counterexample :
    strExc ⟨"FileNotFoundError", "[Errno 2] No such file or directory: /tmp/x.pdf"⟩ =
      "[Errno 2] No such file or directory: /tmp/x.pdf" ∧
    enhanceErrMsg "[Errno 2] No such file or directory: /tmp/x.pdf" ≠
      "[Errno 2] No such file or directory: /tmp/x.pdf" := by
  constructor
  · rfl
  · decide

/-! ### C10: what `get_file_format` actually depends on -/

theorem lowerPred_comp :
    ((fun c : Char => (c ≠ '.' : Bool)) ∘ lowerChar) = (fun c : Char => (c ≠ '.' : Bool)) := by
  funext c
  simp only [Function.comp_apply]
  by_cases h : c = '.'
  · subst h
    decide
  · have h2 : lowerChar c ≠ '.' := fun hx => h (lowerChar_eq_dot.mp hx)
    simp [h, h2]

theorem takeWhile_lower (l : List Char) :
    (lowerList l).takeWhile (fun c => c ≠ '.') = lowerList (l.takeWhile (fun c => c ≠ '.')) := by
  unfold lowerList
  rw [List.takeWhile_map, lowerPred_comp]

theorem dropWhile_lower (l : List Char) :
    (lowerList l).dropWhile (fun c => c ≠ '.') = lowerList (l.dropWhile (fun c => c ≠ '.')) := by
  unfold lowerList
  rw [List.dropWhile_map, lowerPred_comp]

theorem reverse_lower (l : List Char) : (lowerList l).reverse = lowerList l.reverse := by
  unfold lowerList
  rw [List.map_reverse]

theorem pathSuffix_lower (cs : List Char) :
    pathSuffix (lowerList cs) = lowerList (pathSuffix cs) := by
  unfold pathSuffix
  rw [reverse_lower, takeWhile_lower, dropWhile_lower]
  rcases hd : cs.reverse.dropWhile (fun c => c ≠ '.') with _ | ⟨c, preRev⟩
  · simp [lowerList]
  · simp only [lowerList, List.map_cons]
    by_cases hpre : preRev = []
    · subst hpre
      simp
    · rw [if_neg (by simpa [lowerList] using fun h => hpre h), if_neg hpre]
      by_cases haft : cs.reverse.takeWhile (fun c => c ≠ '.') = []
      · rw [haft]
        simp
      · rw [if_neg (by simpa [lowerList] using fun h => haft h), if_neg haft]
        simp only [lowerList, List.map_reverse, List.map_cons]
        rw [show lowerChar '.' = '.' from rfl]

theorem lastSeg_append_dotfree (xs ys : List Char) (hys : ∀ c ∈ ys, c ≠ '.') :
    lastSeg (xs ++ '.' :: ys) = ys := by
  unfold lastSeg
  rw [List.reverse_append, List.reverse_cons, List.append_assoc, List.singleton_append]
  rw [List.takeWhile_append_of_pos
    (fun a ha => by simpa using hys a (List.mem_reverse.mp ha))]
  rw [List.takeWhile_cons_of_neg (by simp)]
  simp

theorem pathSuffix_append (xs ys : List Char) (hxs : xs ≠ []) (hys0 : ys ≠ [])
    (hys : ∀ c ∈ ys, c ≠ '.') : pathSuffix (xs ++ '.' :: ys) = '.' :: ys := by
  unfold pathSuffix
  rw [List.reverse_append, List.reverse_cons, List.append_assoc, List.singleton_append]
  have htake : (ys.reverse ++ '.' :: xs.reverse).takeWhile (fun c => c ≠ '.') = ys.reverse := by
    rw [List.takeWhile_append_of_pos
      (fun a ha => by simpa using hys a (List.mem_reverse.mp ha))]
    rw [List.takeWhile_cons_of_neg (by simp)]
    simp
  have hdrop : (ys.reverse ++ '.' :: xs.reverse).dropWhile (fun c => c ≠ '.') =
      '.' :: xs.reverse := by
    rw [List.dropWhile_append_of_pos
      (fun a ha => by simpa using hys a (List.mem_reverse.mp ha))]
    rw [List.dropWhile_cons_of_neg (by simp)]
  rw [htake, hdrop]
  show (if xs.reverse = [] then ([] : List Char)
    else if ys.reverse = [] then [] else '.' :: ys.reverse.reverse) = '.' :: ys
  rw [if_neg (by simpa using hxs), if_neg (by simpa using hys0), List.reverse_reverse]

theorem findFormat_eq_none (ext : List Char) :
    ∀ m : List (String × List String), (∀ p ∈ m, ∀ e ∈ p.2, e.toList ≠ ext) →
      findFormat ext m = none := by
  intro m
  induction m with
  | nil => intro _; rfl
  | cons p t ih =>
    intro h
    obtain ⟨fmt, exts⟩ := p
    rw [findFormat]
    have hany : (exts.any fun e => e.toList == ext) = false := by
      rcases hany : exts.any fun e => e.toList == ext
      · rfl
      · obtain ⟨e, he, heq⟩ := List.any_eq_true.mp hany
        exact absurd (by simpa using heq) (h (fmt, exts) (List.mem_cons_self _ _) e he)
    rw [if_neg (by rw [hany]; decide)]
    exact ih fun p hp => h p (List.mem_cons_of_mem _ hp)

theorem findFormat_isSome (ext : List Char) :
    ∀ m : List (String × List String), (∃ p ∈ m, ∃ e ∈ p.2, e.toList = ext) →
      (findFormat ext m).isSome = true := by
  intro m
  induction m with
  | nil => rintro ⟨p, hp, _⟩; exact absurd hp (List.not_mem_nil p)
  | cons q t ih =>
    rintro ⟨p, hp, e, he, heq⟩
    obtain ⟨fmt, exts⟩ := q
    rw [findFormat]
    rcases hany : exts.any fun e => e.toList == ext
    · rw [if_neg (by decide)]
      rcases List.mem_cons.mp hp with rfl | hp'
      · have hcontra : (exts.any fun e => e.toList == ext) = true :=
          List.any_eq_true.mpr ⟨e, he, beq_iff_eq.mpr heq⟩
        rw [hany] at hcontra
        exact Bool.noConfusion hcontra
      · exact ih ⟨p, hp', e, he, heq⟩
    · rfl

theorem toList_eq_nil {s : String} (h : s.toList = []) : s = "" :=
  String.ext h

theorem lowerList_eq_nil {l : List Char} (h : lowerList l = []) : l = [] :=
  List.map_eq_nil_iff.mp h

theorem toList_append_dot (a ext : String) :
    (a ++ "." ++ ext).toList = a.toList ++ '.' :: ext.toList := by
  show (a ++ "." ++ ext).data = a.data ++ '.' :: ext.data
  rw [String.data_append, String.data_append]
  rw [show (".".data : List Char) = ['.'] from rfl]
  simp

theorem lowerList_dotfree {l : List Char} (h : ∀ c ∈ l, c ≠ '.') :
    ∀ c ∈ lowerList l, c ≠ '.' := by
  intro c hc
  obtain ⟨c', hc', rfl⟩ := List.mem_map.mp hc
  exact fun hx => h c' hc' (lowerChar_eq_dot.mp hx)

theorem dictGet_eq_none (k : String) :
    ∀ m : List (String × String), (∀ p ∈ m, k ≠ p.1) → dictGet m k = none := by
  intro m
  induction m with
  | nil => intro _; rfl
  | cons q t ih =>
    intro h
    obtain ⟨k', v⟩ := q
    rw [dictGet]
    rw [if_neg (fun he => h (k', v) (List.mem_cons_self _ _) he.symm)]
    exact ih fun p hp => h p (List.mem_cons_of_mem _ hp)

/-- C10 (amended): in both variants `get_file_format` is a deterministic
function of a lowercased final-extension key. The basic variant keys on the
lowercased segment after the last dot (the whole lowercased name when no dot
is present), returns `None` for the empty filename and for keys matching no
extension of the mapping, and a format whenever some entry of the mapping
carries the key; changing the case of the filename, or the part before the
final dot, never changes its result. The enhanced variant keys on the
lowercased pathlib suffix — also case- and extension-determined, `None` on
the empty filename and on unmapped suffixes — but its suffix is empty for
dotfiles, so only alterations that keep the part before the final dot
non-empty are guaranteed not to change its result. -/
theorem c10_extension_keying (m : List (String × List String)) :
    getFileFormatB m "" = none ∧
    getFileFormatE "" = none ∧
    (∀ f₁ f₂ : String, f₁ ≠ "" → f₂ ≠ "" →
      lastSeg (lowerList f₁.toList) = lastSeg (lowerList f₂.toList) →
      getFileFormatB m f₁ = getFileFormatB m f₂) ∧
    (∀ f₁ f₂ : String, lowerList f₁.toList = lowerList f₂.toList →
      getFileFormatB m f₁ = getFileFormatB m f₂ ∧ getFileFormatE f₁ = getFileFormatE f₂) ∧
    (∀ f₁ f₂ : String, pathSuffix f₁.toList = pathSuffix f₂.toList →
      getFileFormatE f₁ = getFileFormatE f₂) ∧
    (∀ f : String, f ≠ "" →
      (∀ p ∈ m, ∀ e ∈ p.2, e.toList ≠ lastSeg (lowerList f.toList)) →
      getFileFormatB m f = none) ∧
    (∀ f : String, f ≠ "" →
      (∃ p ∈ m, ∃ e ∈ p.2, e.toList = lastSeg (lowerList f.toList)) →
      (getFileFormatB m f).isSome = true) ∧
    (∀ a₁ a₂ ext : String, (∀ c ∈ ext.toList, c ≠ '.') →
      getFileFormatB m (a₁ ++ "." ++ ext) = getFileFormatB m (a₂ ++ "." ++ ext)) ∧
    (∀ a₁ a₂ ext : String, a₁ ≠ "" → a₂ ≠ "" → ext ≠ "" → (∀ c ∈ ext.toList, c ≠ '.') →
      getFileFormatE (a₁ ++ "." ++ ext) = getFileFormatE (a₂ ++ "." ++ ext)) ∧
    (∀ k v, (k, v) ∈ enhFormatMapping → ∀ f : String,
      (lowerList (pathSuffix f.toList)).asString = k → getFileFormatE f = some v) ∧
    (∀ f : String,
      (∀ p ∈ enhFormatMapping, (lowerList (pathSuffix f.toList)).asString ≠ p.1) →
      getFileFormatE f = none) := by
  have hBne : ∀ f : String, f ≠ "" →
      getFileFormatB m f = findFormat (lastSeg (lowerList f.toList)) m := by
    intro f hf
    rw [getFileFormatB, if_neg hf]
  have hne_append : ∀ a ext : String, (a ++ "." ++ ext) ≠ "" := by
    intro a ext h
    have hl := congrArg String.toList h
    rw [toList_append_dot] at hl
    simp at hl
  refine ⟨rfl, rfl, ?_, ?_, ?_, ?_, ?_, ?_, ?_, ?_, ?_⟩
  · intro f₁ f₂ h1 h2 hseg
    rw [hBne f₁ h1, hBne f₂ h2, hseg]
  · intro f₁ f₂ hll
    constructor
    · by_cases h1 : f₁ = ""
      · subst h1
        have h2 : f₂ = "" :=
          toList_eq_nil (lowerList_eq_nil (by rw [← hll]; rfl))
        rw [h2]
      · have h2 : f₂ ≠ "" := by
          intro h
          subst h
          exact h1 (toList_eq_nil (lowerList_eq_nil (by rw [hll]; rfl)))
        rw [hBne f₁ h1, hBne f₂ h2, hll]
    · rw [getFileFormatE, getFileFormatE,
        ← pathSuffix_lower f₁.toList, ← pathSuffix_lower f₂.toList, hll]
  · intro f₁ f₂ hsuf
    rw [getFileFormatE, getFileFormatE, hsuf]
  · intro f hf hnone
    rw [hBne f hf]
    exact findFormat_eq_none _ m hnone
  · intro f hf hsome
    rw [hBne f hf]
    exact findFormat_isSome _ m hsome
  · intro a₁ a₂ ext hdotfree
    have hseg : ∀ a : String, lastSeg (lowerList (a ++ "." ++ ext).toList) =
        lowerList ext.toList := by
      intro a
      rw [toList_append_dot]
      unfold lowerList
      rw [List.map_append, List.map_cons]
      rw [show lowerChar '.' = '.' from rfl]
      exact lastSeg_append_dotfree _ _ (lowerList_dotfree hdotfree)
    rw [hBne _ (hne_append a₁ ext), hBne _ (hne_append a₂ ext), hseg a₁, hseg a₂]
  · intro a₁ a₂ ext ha₁ ha₂ hext hdotfree
    have hsuf : ∀ a : String, a ≠ "" →
        pathSuffix (a ++ "." ++ ext).toList = '.' :: ext.toList := by
      intro a ha
      rw [toList_append_dot]
      refine pathSuffix_append _ _ (fun h => ha (toList_eq_nil h))
        (fun h => hext (toList_eq_nil h)) hdotfree
    rw [getFileFormatE, getFileFormatE, hsuf a₁ ha₁, hsuf a₂ ha₂]
  · intro k v hkv f hkey
    rw [getFileFormatE, hkey]
    have hall : ∀ p ∈ enhFormatMapping, dictGet enhFormatMapping p.1 = some p.2 := by decide
    exact hall (k, v) hkv
  · intro f hnone
    rw [getFileFormatE]
    exact dictGet_eq_none _ enhFormatMapping hnone

/-- Witness for C10: case changes and changes before the final dot do not
affect the basic variant; the `.md` suffix is mapped and the unmapped
suffix `.xyz` yields `none` in the enhanced variant. -/
theorem c10_witness :
    getFileFormatB [("PDF", ["pdf"])] "Report.PDF" = getFileFormatB [("PDF", ["pdf"])] "x.pdf" ∧
    getFileFormatE ("dir-Report" ++ "." ++ "htm") = getFileFormatE ("b" ++ "." ++ "htm") ∧
    getFileFormatE "notes.md" = some "Markdown" ∧
    getFileFormatE "a.xyz" = none := by
  have h := c10_extension_keying [("PDF", ["pdf"])]
  refine ⟨h.2.2.1 "Report.PDF" "x.pdf" (by decide) (by decide) (by decide), ?_, ?_, ?_⟩
  · exact h.2.2.2.2.2.2.2.2.1 "dir-Report" "b" "htm" (by decide) (by decide) (by decide)
      (by decide)
  · exact h.2.2.2.2.2.2.2.2.2.1 ".md" "Markdown" (by decide) "notes.md" (by decide)
  · exact h.2.2.2.2.2.2.2.2.2.2 "a.xyz" (by decide)

/-- Counterexample to C10 as stated: in the enhanced variant, altering only
the (empty) part before the final dot — `".pdf"` versus `"a.pdf"` — changes
the result from `None` to `PDF`, because `pathlib` gives dotfiles an empty
suffix. -/
theorem c10_counterexample :
    (".pdf" : String) = "" ++ "." ++ "pdf" ∧ ("a.pdf" : String) = "a" ++ "." ++ "pdf" ∧
    getFileFormatE ".pdf" = none ∧ getFileFormatE "a.pdf" = some "PDF" := by
  refine ⟨by decide, by decide, by decide, by decide⟩

end DoclingUI
